import Mathlib

/-!
Verification development for the Repository Intelligence Engine
(`src/.repometa/analyzer.py`, "Vision 2045 Intelligence Engine").

The Python module is shallowly embedded below: Python strings are modelled
as `List Char` where their splitting behaviour matters (so that
`str.split('\n')` is captured exactly) and as `String` where they are only
compared for equality; Python `dict`s are association lists built by an
insert-or-overwrite operation mirroring `d[k] = v`; Python `set`s used by
the traversals are duplicate-free `List`s; Python non-negative `int`
counts are `Nat`.  Python `float` scores are modelled as `ℚ` (the scoring
arithmetic at issue involves only exact decimal operations and `min`-caps,
for which rational arithmetic agrees with the bounds being proved).

The file is organised as definitions first (tracing the Python source),
then the theorems settling the specification claims.
-/

namespace Analyzer

/-! ## Python string splitting

`pySplit s` models Python's `s.split('\n')`: the list of chunks between
newline characters; the empty string yields one empty chunk and a string
with `k` newlines yields `k + 1` chunks. -/

def pySplit : List Char → List (List Char)
  | [] => [[]]
  | c :: rest =>
    match pySplit rest with
    | [] => [[]]
    | l :: ls => if c = '\n' then [] :: l :: ls else (c :: l) :: ls

/-! ## Data model (the dataclasses of the Python module) -/

/-- `CodeBlock` dataclass: a block of code extracted from a markdown file. -/
structure CodeBlock where
  filePath : String
  content : List Char
  startLine : Nat
  endLine : Nat
  hashValue : String
deriving DecidableEq, Repr

/-- One entry of the manifest's `structure` list.  Fields that the Python
code reads with `item.get(key, default)` are `Option`s here.  Note the
manifest key `connects_to` holds the graph edges and the manifest key
`dependencies` holds the external-dependency labels. -/
structure ManifestItem where
  path : String
  importance : Option String := none
  connectsTo : Option (List String) := none
  dependencies : Option (List String) := none
  category : Option String := none
deriving DecidableEq, Repr

/-- The manifest document, as consumed by the engine (its `structure` and
`categories` keys). -/
structure Manifest where
  structureItems : List ManifestItem := []
  categories : List String := []
deriving DecidableEq, Repr

/-- `DependencyNode` dataclass: a component in the dependency graph. -/
structure DependencyNode where
  path : String
  importance : String
  dependencies : List String := []
  dependents : List String := []
  externalDeps : List String := []
deriving DecidableEq, Repr

/-- `DependencyNode.blast_radius`: `len(self.dependents)`. -/
def DependencyNode.blastRadius (n : DependencyNode) : Nat :=
  n.dependents.length

/-! ## Association-list dictionaries

Python `dict`s are association lists; assignment `d[k] = v` overwrites the
value in place when the key is present and appends a new entry otherwise
(preserving Python's insertion order). -/

def dictInsert {β : Type} (g : List (String × β)) (k : String) (v : β) :
    List (String × β) :=
  if (g.lookup k).isSome then
    g.map (fun e => if e.1 = k then (k, v) else e)
  else
    g ++ [(k, v)]

theorem lookup_cons {β : Type} (p a : String) (b : β) (es : List (String × β)) :
    List.lookup p ((a, b) :: es) = if p = a then some b else List.lookup p es := by
  by_cases h : p = a
  · simp [List.lookup, h]
  · simp [List.lookup, h, beq_eq_false_iff_ne.mpr h]

theorem lookup_isSome_iff {β : Type} (g : List (String × β)) (a : String) :
    (g.lookup a).isSome = true ↔ a ∈ g.map Prod.fst := by
  induction g with
  | nil => simp [List.lookup]
  | cons e es ih =>
    obtain ⟨b, c⟩ := e
    by_cases h : a = b
    · simp [lookup_cons, h]
    · simp only [lookup_cons, if_neg h, List.map_cons, List.mem_cons]
      rw [ih]
      simp [h]

/-- The tail of the filter comparison: restricting the filter to a smaller
visited complement never increases the count. -/
theorem filter_length_le_of_visited_grow (bs v : List String) (a : String) :
    (bs.filter (fun k => ¬ k ∈ (a :: v))).length ≤
      (bs.filter (fun k => ¬ k ∈ v)).length := by
  rw [← List.countP_eq_length_filter, ← List.countP_eq_length_filter]
  apply List.countP_mono_left
  intro x _ hpx
  simp only [decide_eq_true_eq] at hpx ⊢
  exact fun hxv => hpx (List.mem_cons_of_mem a hxv)

/-- Helper for the termination measures of the traversals: consing a list
member onto the visited set strictly shrinks the unvisited remainder. -/
theorem filter_length_lt_of_mem {l v : List String} {a : String}
    (hal : a ∈ l) (hav : a ∉ v) :
    (l.filter (fun k => ¬ k ∈ (a :: v))).length <
      (l.filter (fun k => ¬ k ∈ v)).length := by
  induction l with
  | nil => simp at hal
  | cons b bs ih =>
    simp only [List.filter_cons]
    by_cases hba : b = a
    · rw [if_neg (by simp [hba]), if_pos (by simp [hba, hav])]
      have hle := filter_length_le_of_visited_grow bs v a
      simp only [List.length_cons]
      omega
    · have hbs : a ∈ bs := by
        rcases List.mem_cons.mp hal with h | h
        · exact absurd h.symm hba
        · exact h
      by_cases hbv : b ∈ v
      · rw [if_neg (by simp [hbv]), if_neg (by simp [hbv])]
        exact ih hbs
      · rw [if_pos (by simp [hba, hbv]), if_pos (by simp [hbv])]
        simp only [List.length_cons]
        exact Nat.succ_lt_succ (ih hbs)

/-! ## Manifest loading (`_load_manifest`, lines 140-148, and
`_build_file_index`, lines 150-155) -/

/-- The possible states of the manifest file as seen by `_load_manifest`. -/
inductive ManifestSource where
  | missing
  | unparseable
  | parsed (m : Manifest)
deriving DecidableEq

/-- `_load_manifest`: `yaml.safe_load` inside `try/except FileNotFoundError`.
A missing file is caught and replaced by `{'structure': [], 'categories': []}`
after printing a warning (the `Bool` in the result records that the warning
was emitted); any other failure — in particular `yaml.YAMLError` raised by
an unparseable manifest — is not caught and propagates to the caller. -/
def loadManifest : ManifestSource → Except String (Manifest × Bool)
  | .missing => .ok ({ structureItems := [], categories := [] }, true)
  | .unparseable => .error "yaml.YAMLError"
  | .parsed m => .ok (m, false)

/-- `_build_file_index`: `index[item['path']] = item` over
`manifest.get('structure', [])`. -/
def buildFileIndex (m : Manifest) : List (String × ManifestItem) :=
  m.structureItems.foldl (fun acc it => dictInsert acc it.path it) []

/-! ## Fragment extraction (`_extract_code_blocks`, lines 191-228)

The regex `r'```(\w*)\n(.*?)```'` (non-greedy, DOTALL) captures, for a
fenced block whose body lines are `ls` and whose closing fence begins on
its own line, the body lines each followed by their terminating newline;
`fenceContent` is that captured `group(2)` string.  `discardBlock` is the
filter applied to each match: `if len(code_content.split('\n')) < 3:
continue`. -/

def fenceContent (ls : List (List Char)) : List Char :=
  (ls.map (fun l => l ++ ['\n'])).flatten

/-- The skip test of `_extract_code_blocks` (lines 208-210). -/
def discardBlock (codeContent : List Char) : Bool :=
  (pySplit codeContent).length < 3

/-- The extraction filter: of the captured block contents of a document,
keep exactly those that are not discarded (the kept ones become
`CodeBlock` fragments). -/
def extractedContents (captured : List (List Char)) : List (List Char) :=
  captured.filter (fun c => !(discardBlock c))

/-! ## Redundancy report (`_generate_redundancy_report`, lines 258-288) -/

/-- `len(block.content.split('\n'))`: the block-size measure used by the
report (both in `locations[].size` and in the savings computation). -/
def blockLineCount (b : CodeBlock) : Nat :=
  (pySplit b.content).length

/-- The per-cluster savings computation (lines 266-269):
`block_sizes = [len(cluster[0].content.split('\n')) for _ in cluster]`
followed by `sum(block_sizes) - block_sizes[0] if block_sizes else 0`.
Note the list comprehension measures `cluster[0]` at every position. -/
def potentialSavingsLines (cluster : List CodeBlock) : Nat :=
  match cluster with
  | [] => 0
  | b0 :: rest =>
    let blockSizes := (b0 :: rest).map (fun _ => blockLineCount b0)
    blockSizes.sum - blockSizes.headD 0

/-- Modelled from the spec's words — "`potentialSavingsLines` (sum of
non-representative members' line counts)" — for refinement comparison
against `potentialSavingsLines` above. -/
def specPotentialSavingsLines (cluster : List CodeBlock) : Nat :=
  ((cluster.drop 1).map blockLineCount).sum

/-- Concrete five-line fragment (content `"l1\nl2\nl3\nl4\nl5"` splits into
5 chunks). -/
def blockFiveLines : CodeBlock :=
  { filePath := "docs/a.md"
    content := "l1\nl2\nl3\nl4\nl5".toList
    startLine := 1
    endLine := 5
    hashValue := "hash-a" }

/-- Concrete three-line fragment. -/
def blockThreeLines : CodeBlock :=
  { filePath := "docs/b.md"
    content := "x1\nx2\nx3".toList
    startLine := 10
    endLine := 12
    hashValue := "hash-b" }

/-! ## Dependency graph construction (`_build_dependency_graph`,
lines 348-368) -/

/-- Node construction (lines 352-360): importance defaults to `'medium'`,
graph edges come from `connects_to`, external labels from `dependencies`,
and `dependents` starts at the dataclass default (empty). -/
def mkNode (item : ManifestItem) : DependencyNode :=
  { path := item.path
    importance := item.importance.getD "medium"
    dependencies := item.connectsTo.getD []
    dependents := []
    externalDeps := item.dependencies.getD [] }

/-- Phase 1 (lines 352-360): `graph[path] = node` for each declared item. -/
def buildGraphNodes (m : Manifest) : List (String × DependencyNode) :=
  m.structureItems.foldl (fun acc it => dictInsert acc it.path (mkNode it)) []

/-- `graph[dep].dependents.append(path)`: append `p` to the dependents of
the entry keyed `dep`. -/
def appendDependent (g : List (String × DependencyNode)) (dep p : String) :
    List (String × DependencyNode) :=
  g.map (fun e =>
    if e.1 = dep then (e.1, { e.2 with dependents := e.2.dependents ++ [p] })
    else e)

/-- Phase 2 (lines 362-366): for each node of `src` in insertion order, for
each of its declared dependencies in order, if the target is a declared key
of `keyGraph`, append the source path to the target's dependents. -/
def addDependents (src keyGraph acc0 : List (String × DependencyNode)) :
    List (String × DependencyNode) :=
  src.foldl (fun acc pe =>
    pe.2.dependencies.foldl (fun a d =>
      if (keyGraph.lookup d).isSome then appendDependent a d pe.1 else a) acc)
    acc0

/-- `_build_dependency_graph`: phase 1 then phase 2 over the same dict (the
iteration snapshot, the key-membership test and the accumulator all start
from the phase-1 graph; phase 2 only ever mutates `dependents` lists, so
iterating the dict while appending is sound to model this way). -/
def buildDependencyGraph (m : Manifest) : List (String × DependencyNode) :=
  let g0 := buildGraphNodes m
  addDependents g0 g0 g0

/-- The multiset of reverse edges accumulated into the dependents of key
`b` by phase 2: one copy of `pe`'s path per occurrence of `b` in `pe`'s
declared dependencies, in source order. -/
def dependentsContrib (src : List (String × DependencyNode)) (b : String) :
    List String :=
  (src.map (fun pe => List.replicate (pe.2.dependencies.count b) pe.1)).flatten

/-! ## Failure-impact BFS (`_calculate_failure_impact`, lines 370-393) -/

/-- The BFS loop of `_calculate_failure_impact`: pop the queue head; skip
it if already visited; otherwise mark it visited and enqueue its
not-yet-visited dependents (when the node is a key of the graph).  The
`visited` set is a duplicate-free list. -/
def bfsGo (g : List (String × DependencyNode)) (visited queue : List String) :
    List String :=
  match queue with
  | [] => visited
  | current :: rest =>
    if hv : current ∈ visited then bfsGo g visited rest
    else
      match hlook : g.lookup current with
      | some node =>
        bfsGo g (current :: visited)
          (rest ++ node.dependents.filter (fun d => ¬ d ∈ (current :: visited)))
      | none => bfsGo g (current :: visited) rest
termination_by (((g.map Prod.fst).filter (fun k => ¬ k ∈ visited)).length, queue.length)
decreasing_by
  · apply Prod.Lex.right
    simp
  · apply Prod.Lex.left
    have hmem : current ∈ g.map Prod.fst := by
      have hs : (g.lookup current).isSome = true := by
        rw [hlook]
        rfl
      exact (Analyzer.lookup_isSome_iff g current).mp hs
    exact Analyzer.filter_length_lt_of_mem hmem hv
  · have heq : ((g.map Prod.fst).filter (fun k => ¬ k ∈ current :: visited)) =
        ((g.map Prod.fst).filter (fun k => ¬ k ∈ visited)) := by
      apply List.filter_congr
      intro a ha
      have hac : a ≠ current := by
        intro hh
        subst hh
        have hs : (g.lookup a).isSome = true :=
          (Analyzer.lookup_isSome_iff g a).mpr ha
        rw [hlook] at hs
        exact absurd hs (by simp)
      simp [hac]
    rw [heq]
    apply Prod.Lex.right
    simp

/-- `total_impact = len(visited) - 1` for the BFS started at `start`. -/
def totalImpact (g : List (String × DependencyNode)) (start : String) : Nat :=
  (bfsGo g [] [start]).length - 1

/-- The result record of `_calculate_failure_impact`. -/
structure FailureImpact where
  directImpact : Nat
  totalImpactCount : Nat
  severity : String
deriving DecidableEq, Repr

/-! ## Severity classification (`_impact_severity`, lines 395-404) -/

/-- `_impact_severity(impact_count, importance)`: the four-way
classification, evaluated in the source's order with first match wins. -/
def impactSeverity (impactCount : Nat) (importance : String) : String :=
  if importance = "critical" ∧ 5 ≤ impactCount then "CATASTROPHIC"
  else if importance = "critical" ∨ 10 ≤ impactCount then "SEVERE"
  else if 5 ≤ impactCount then "MODERATE"
  else "LOW"

/-- Severity rank realising the spec's order
LOW < MODERATE < SEVERE < CATASTROPHIC. -/
def severityRank (s : String) : Nat :=
  if s = "CATASTROPHIC" then 3
  else if s = "SEVERE" then 2
  else if s = "MODERATE" then 1
  else 0

/-- `_calculate_failure_impact(node, graph)`. -/
def calculateFailureImpact (node : DependencyNode)
    (g : List (String × DependencyNode)) : FailureImpact :=
  { directImpact := node.dependents.length
    totalImpactCount := totalImpact g node.path
    severity := impactSeverity (totalImpact g node.path) node.importance }

/-- One step of the dependents relation (the edges the BFS follows):
`b` is listed among the dependents of the graph entry for `a`. -/
def stepRel (g : List (String × DependencyNode)) (a b : String) : Prop :=
  ∃ n, g.lookup a = some n ∧ b ∈ n.dependents

/-- Reachability along dependents edges (reflexive-transitive closure of
`stepRel`). -/
def Reaches (g : List (String × DependencyNode)) : String → String → Prop :=
  Relation.ReflTransGen (stepRel g)

/-! ## Critical-path tracing (`_find_critical_paths`, lines 421-436, and
`_trace_dependency_chain`, lines 438-460) -/

mutual

/-- `_trace_dependency_chain(start, graph, visited)`: return `[]` when
`start` is already visited or not a graph key; otherwise mark it visited
and prepend it to the longest chain obtained by recursing into its
declared dependencies (each recursive call receives a copy of the visited
set, modelled by sharing the immutable list). -/
def traceDependencyChain (g : List (String × DependencyNode))
    (start : String) (visited : List String) : List String :=
  if hv : start ∈ visited then []
  else
    match hlook : g.lookup start with
    | none => []
    | some node => start :: longestSubchain g node.dependencies (start :: visited) []
termination_by (((g.map Prod.fst).filter (fun k => ¬ k ∈ visited)).length, 0)
decreasing_by
  · apply Prod.Lex.left
    have hmem : start ∈ g.map Prod.fst := by
      have hs : (g.lookup start).isSome = true := by
        rw [hlook]
        rfl
      exact (Analyzer.lookup_isSome_iff g start).mp hs
    exact Analyzer.filter_length_lt_of_mem hmem hv

/-- The `longest_subchain` accumulation loop inside
`_trace_dependency_chain`: fold over the dependency list keeping the first
strictly-longest subchain. -/
def longestSubchain (g : List (String × DependencyNode)) (deps : List String)
    (visited : List String) (best : List String) : List String :=
  match deps with
  | [] => best
  | d :: ds =>
    let sub := traceDependencyChain g d visited
    longestSubchain g ds visited (if best.length < sub.length then sub else best)
termination_by (((g.map Prod.fst).filter (fun k => ¬ k ∈ visited)).length, deps.length + 1)
decreasing_by
  · apply Prod.Lex.right
    simp only [List.length_cons]
    omega
  · apply Prod.Lex.right
    simp only [List.length_cons]
    omega

end

/-- The record appended for each qualifying chain in
`_find_critical_paths`. -/
structure CriticalPath where
  chain : List String
  length : Nat
  risk : String
deriving DecidableEq, Repr

/-- The risk label: `'High'` when any chain member that is a graph key has
critical importance, else `'Medium'`. -/
def chainRisk (g : List (String × DependencyNode)) (chain : List String) :
    String :=
  if chain.any (fun p =>
      match g.lookup p with
      | some n => n.importance == "critical"
      | none => false) then "High"
  else "Medium"

/-- The loop body of `_find_critical_paths`: only nodes with an empty
declared dependency list are traced (`if not node.dependencies`), and a
traced chain is appended only when its length is at least 3. -/
def criticalPathStep (g : List (String × DependencyNode))
    (acc : List CriticalPath) (pe : String × DependencyNode) :
    List CriticalPath :=
  if pe.2.dependencies = [] then
    let chain := traceDependencyChain g pe.1 []
    if 3 ≤ chain.length then
      acc ++ [{ chain := chain, length := chain.length,
                risk := chainRisk g chain }]
    else acc
  else acc

/-- `_find_critical_paths(graph)`: trace a chain from every node with an
empty declared dependency list, keep chains of length ≥ 3, sort by length
descending (stable) and truncate to 5. -/
def findCriticalPaths (g : List (String × DependencyNode)) :
    List CriticalPath :=
  ((g.foldl (criticalPathStep g) []).mergeSort
    (fun a b => b.length ≤ a.length)).take 5

/-! ## Complexity scoring (`_calculate_complexity_score`, lines 688-698) -/

/-- `line_score = min((lines / 1000) * 50, 50)`. -/
def lineScore (lines : Nat) : ℚ := min ((lines : ℚ) / 1000 * 50) 50

/-- `function_score = min((functions / 30) * 20, 20)`. -/
def functionScore (functions : Nat) : ℚ := min ((functions : ℚ) / 30 * 20) 20

/-- `class_score = min((classes / 50) * 20, 20)`. -/
def classScore (classes : Nat) : ℚ := min ((classes : ℚ) / 50 * 20) 20

/-- `import_score = min((imports / 20) * 10, 10)`. -/
def importScore (imports : Nat) : ℚ := min ((imports : ℚ) / 20 * 10) 10

/-- `_calculate_complexity_score`: sum of the four sub-scores, capped at
100. -/
def calculateComplexityScore (lines functions classes imports : Nat) : ℚ :=
  min (lineScore lines + functionScore functions + classScore classes
    + importScore imports) 100

/-! ## Concrete manifests used as counterexamples and witnesses -/

/-- A manifest whose component list declares the same path twice, with
different attributes. -/
def dupManifest : Manifest :=
  { structureItems := [
      { path := "X", importance := some "low", connectsTo := some ["A"],
        dependencies := some ["ext-first"] },
      { path := "X", importance := some "critical", connectsTo := some ["B"],
        dependencies := some ["ext-second"] } ] }

/-- A manifest with the single declared edge A→B. -/
def edgeManifest : Manifest :=
  { structureItems := [
      { path := "A", connectsTo := some ["B"] },
      { path := "B" } ] }

/-- A manifest whose component S declares a duplicated edge to T and a
self-edge. -/
def multiManifest : Manifest :=
  { structureItems := [
      { path := "S", connectsTo := some ["T", "T", "S"] },
      { path := "T" } ] }

/-- A two-node dependency cycle: X connects to Y and Y connects to X. -/
def cycleManifest : Manifest :=
  { structureItems := [
      { path := "X", connectsTo := some ["Y"] },
      { path := "Y", connectsTo := some ["X"] } ] }

/-- A linear chain A→B→C→D of medium-importance components. -/
def chainManifest : Manifest :=
  { structureItems := [
      { path := "A", importance := some "medium", connectsTo := some ["B"] },
      { path := "B", importance := some "medium", connectsTo := some ["C"] },
      { path := "C", importance := some "medium", connectsTo := some ["D"] },
      { path := "D", importance := some "medium" } ] }

/-- The node the engine builds for X in `cycleManifest`. -/
def nodeX : DependencyNode :=
  { path := "X", importance := "medium", dependencies := ["Y"],
    dependents := ["Y"], externalDeps := [] }

/-- The node the engine builds for Y in `cycleManifest`. -/
def nodeY : DependencyNode :=
  { path := "Y", importance := "medium", dependencies := ["X"],
    dependents := ["X"], externalDeps := [] }

/-- The node the engine builds for B in `edgeManifest`. -/
def nodeBedge : DependencyNode :=
  { path := "B", importance := "medium", dependencies := [],
    dependents := ["A"], externalDeps := [] }

/-- The node the engine builds for S in `multiManifest`. -/
def nodeS : DependencyNode :=
  { path := "S", importance := "medium", dependencies := ["T", "T", "S"],
    dependents := ["S"], externalDeps := [] }

/-- The node the engine builds for T in `multiManifest`. -/
def nodeT : DependencyNode :=
  { path := "T", importance := "medium", dependencies := [],
    dependents := ["S", "S"], externalDeps := [] }

/-! ## Theorems: basic facts about the embedded primitives -/

theorem pySplit_ne_nil (s : List Char) : pySplit s ≠ [] := by
  cases s with
  | nil => simp [pySplit]
  | cons c rest =>
    simp only [pySplit]
    cases pySplit rest with
    | nil => simp
    | cons l ls =>
      by_cases h : c = '\n' <;> simp [h]

/-- Splitting a string of the form `line ++ "\n" ++ rest` where `line`
contains no newline yields `line` consed onto the split of `rest`. -/
theorem pySplit_append_newline (line rest : List Char) (h : '\n' ∉ line) :
    pySplit (line ++ '\n' :: rest) = line :: pySplit rest := by
  induction line with
  | nil =>
    simp only [List.nil_append, pySplit]
    cases hr : pySplit rest with
    | nil => exact absurd hr (pySplit_ne_nil rest)
    | cons l ls => simp
  | cons c cs ih =>
    have hc : c ≠ '\n' := fun hh => h (hh ▸ List.mem_cons_self c cs)
    have hcs : '\n' ∉ cs := fun hh => h (List.mem_cons_of_mem c hh)
    simp only [List.cons_append, pySplit, List.append_eq, ih hcs]
    simp [hc]

/-- The captured content of a conventionally closed fenced block splits
into its body lines followed by one trailing empty chunk. -/
theorem pySplit_fenceContent (ls : List (List Char))
    (h : ∀ l ∈ ls, '\n' ∉ l) :
    pySplit (fenceContent ls) = ls ++ [[]] := by
  induction ls with
  | nil => simp [fenceContent, pySplit]
  | cons l ls ih =>
    have hl : '\n' ∉ l := h l (List.mem_cons_self l ls)
    have hls : ∀ x ∈ ls, '\n' ∉ x := fun x hx => h x (List.mem_cons_of_mem l hx)
    have hshape : fenceContent (l :: ls) = l ++ '\n' :: fenceContent ls := by
      simp [fenceContent]
    rw [hshape, pySplit_append_newline l (fenceContent ls) hl, ih hls]
    simp

theorem lookup_mapUpdate {β : Type} (g : List (String × β)) (k : String)
    (f : β → β) (p : String) :
    (g.map (fun e => if e.1 = k then (e.1, f e.2) else e)).lookup p =
      if p = k then (g.lookup p).map f else g.lookup p := by
  induction g with
  | nil => simp [List.lookup]
  | cons e es ih =>
    obtain ⟨a, b⟩ := e
    simp only [List.map_cons]
    by_cases hek : a = k
    · subst hek
      rw [if_pos rfl]
      rw [lookup_cons, lookup_cons]
      by_cases hpa : p = a
      · simp [hpa]
      · simp [hpa, ih]
    · rw [if_neg (show ¬((a, b) : String × β).1 = k from hek)]
      rw [lookup_cons, lookup_cons]
      by_cases hpa : p = a
      · have hpk : p ≠ k := fun h => hek (hpa ▸ h)
        simp [hpa, hpk, hek]
      · simp [hpa, ih]

theorem lookup_mapReplace {β : Type} (g : List (String × β)) (k : String)
    (v : β) (p : String) :
    (g.map (fun e => if e.1 = k then (k, v) else e)).lookup p =
      if p = k then (g.lookup p).map (fun _ => v) else g.lookup p := by
  have hfun : (fun (e : String × β) => if e.1 = k then (k, v) else e) =
      (fun (e : String × β) => if e.1 = k then (e.1, (fun _ => v) e.2) else e) := by
    funext e
    by_cases h : e.1 = k
    · simp [h]
    · simp [h]
  rw [hfun]
  exact lookup_mapUpdate g k (fun _ => v) p

theorem lookup_dictInsert {β : Type} (g : List (String × β)) (k : String)
    (v : β) (p : String) :
    (dictInsert g k v).lookup p = if p = k then some v else g.lookup p := by
  unfold dictInsert
  split
  case isTrue h =>
    rw [lookup_mapReplace]
    by_cases hpk : p = k
    · subst hpk
      obtain ⟨w, hw⟩ := Option.isSome_iff_exists.mp h
      simp [hw]
    · simp [hpk]
  case isFalse h =>
    induction g with
    | nil =>
      rw [List.nil_append, lookup_cons]
    | cons e es ih =>
      obtain ⟨a, b⟩ := e
      have hke : k ≠ a := by
        intro hh
        exact h (by simp [lookup_cons, hh])
      have h' : ¬(es.lookup k).isSome = true := by
        intro hh
        exact h (by simp [lookup_cons, hke, hh])
      by_cases hpa : p = a
      · have hpk : p ≠ k := fun hh => hke (hh.symm.trans hpa)
        simp [List.cons_append, lookup_cons, hpa, hpk, Ne.symm hke]
      · simp only [List.cons_append, lookup_cons, if_neg hpa]
        exact ih h'

theorem keys_dictInsert {β : Type} (g : List (String × β)) (k : String)
    (v : β) :
    (dictInsert g k v).map Prod.fst =
      if (g.lookup k).isSome then g.map Prod.fst
      else g.map Prod.fst ++ [k] := by
  unfold dictInsert
  split
  case isTrue h =>
    rw [List.map_map]
    apply List.map_congr_left
    intro e _
    by_cases he : e.1 = k
    · simp [he]
    · simp [he]
  case isFalse h =>
    simp

theorem nodup_keys_dictInsert {β : Type} (g : List (String × β)) (k : String)
    (v : β) (h : (g.map Prod.fst).Nodup) :
    ((dictInsert g k v).map Prod.fst).Nodup := by
  rw [keys_dictInsert]
  split
  case isTrue _ => exact h
  case isFalse hk =>
    rw [List.nodup_append]
    refine ⟨h, List.nodup_singleton k, ?_⟩
    intro a ha
    simp only [List.mem_singleton]
    intro hak
    subst hak
    exact hk ((lookup_isSome_iff g a).mpr ha)

theorem mem_of_lookup_eq_some {β : Type} {g : List (String × β)} {a : String}
    {n : β} (h : g.lookup a = some n) : (a, n) ∈ g := by
  induction g with
  | nil => simp [List.lookup] at h
  | cons e es ih =>
    obtain ⟨b, c⟩ := e
    rw [lookup_cons] at h
    by_cases hab : a = b
    · rw [if_pos hab] at h
      subst hab
      have hcn : c = n := Option.some.inj h
      subst hcn
      exact List.mem_cons_self _ _
    · rw [if_neg hab] at h
      exact List.mem_cons_of_mem _ (ih h)

theorem lookup_eq_some_of_mem_nodup {β : Type} {g : List (String × β)}
    {a : String} {n : β} (hnd : (g.map Prod.fst).Nodup) (h : (a, n) ∈ g) :
    g.lookup a = some n := by
  induction g with
  | nil => simp at h
  | cons e es ih =>
    obtain ⟨b, c⟩ := e
    rw [List.map_cons, List.nodup_cons] at hnd
    rcases List.mem_cons.mp h with heq | hmem
    · rw [lookup_cons, if_pos (congrArg Prod.fst heq)]
      exact congrArg some (congrArg Prod.snd heq).symm
    · have hab : a ≠ b := by
        intro hh
        subst hh
        exact hnd.1 (List.mem_map.mpr ⟨(a, n), hmem, rfl⟩)
      rw [lookup_cons, if_neg hab]
      exact ih hnd.2 hmem

/-! ## Theorems settling the claims on scoring (C9, C8) -/

theorem lineScore_nonneg (l : Nat) : 0 ≤ lineScore l :=
  le_min (by positivity) (by norm_num)

theorem functionScore_nonneg (f : Nat) : 0 ≤ functionScore f :=
  le_min (by positivity) (by norm_num)

theorem classScore_nonneg (c : Nat) : 0 ≤ classScore c :=
  le_min (by positivity) (by norm_num)

theorem importScore_nonneg (i : Nat) : 0 ≤ importScore i :=
  le_min (by positivity) (by norm_num)

/-- **C9.**  For every combination of non-negative line,
function-like-block, section-header, and import-like-statement counts, the
complexity score is the sum of four independently capped contributions
(caps 50, 20, 20, 10, scaled so that 1000 lines, 30 blocks, 50 headers and
20 statements reach their caps exactly) and satisfies
`0 ≤ complexityScore ≤ 100`. -/
theorem complexity_score_bounds (l f c i : Nat) :
    0 ≤ calculateComplexityScore l f c i ∧
    calculateComplexityScore l f c i ≤ 100 ∧
    calculateComplexityScore l f c i =
      min (lineScore l + functionScore f + classScore c + importScore i) 100 ∧
    lineScore l ≤ 50 ∧ functionScore f ≤ 20 ∧ classScore c ≤ 20 ∧
    importScore i ≤ 10 ∧
    lineScore 1000 = 50 ∧ functionScore 30 = 20 ∧ classScore 50 = 20 ∧
    importScore 20 = 10 := by
  refine ⟨?_, ?_, rfl, ?_, ?_, ?_, ?_, ?_, ?_, ?_, ?_⟩
  · exact le_min
      (by
        have h1 := lineScore_nonneg l
        have h2 := functionScore_nonneg f
        have h3 := classScore_nonneg c
        have h4 := importScore_nonneg i
        linarith)
      (by norm_num)
  · exact min_le_right _ _
  · exact min_le_right _ _
  · exact min_le_right _ _
  · exact min_le_right _ _
  · exact min_le_right _ _
  · norm_num [lineScore]
  · norm_num [functionScore]
  · norm_num [classScore]
  · norm_num [importScore]

/-- **C8.**  For every importance value held fixed, the severity
classification is monotone in `totalImpact`: increasing the impact count
never decreases the severity rank (LOW < MODERATE < SEVERE <
CATASTROPHIC). -/
theorem severity_monotone (importance : String) (i j : Nat) (hij : i ≤ j) :
    severityRank (impactSeverity i importance) ≤
      severityRank (impactSeverity j importance) := by
  by_cases hc : importance = "critical"
  all_goals
    simp only [impactSeverity, hc]
    split_ifs <;> simp_all [severityRank] <;> omega

/-- Witness for `severity_monotone` at a concrete input. -/
theorem severity_monotone_witness :
    severityRank (impactSeverity 4 "high") ≤
      severityRank (impactSeverity 11 "high") :=
  severity_monotone "high" 4 11 (by norm_num)

/-! ## Theorems settling C1 (potential savings) -/

/-- **C1 (counterexample).**  A cluster whose representative has 5 lines
and whose single other member has 3 lines: the report computes 5 saved
lines, whereas the claimed "sum of the non-representative members' line
counts" is 3. -/
theorem potential_savings_counterexample :
    potentialSavingsLines [blockFiveLines, blockThreeLines] = 5 ∧
    specPotentialSavingsLines [blockFiveLines, blockThreeLines] = 3 ∧
    potentialSavingsLines [blockFiveLines, blockThreeLines] ≠
      specPotentialSavingsLines [blockFiveLines, blockThreeLines] := by
  refine ⟨?_, ?_, ?_⟩ <;> decide

/-- **C1 (amended).**  For every non-empty cluster, the reported
`potential_savings_lines` equals (member count − 1) × the line count of
the first (representative) member — because the comprehension
`[len(cluster[0].content.split('\n')) for _ in cluster]` sizes every
position by the representative.  It agrees with the spec's "sum of
non-representative members' line counts" only when all members share the
representative's line count (e.g. exact-duplicate clusters). -/
theorem potential_savings_amended (b0 : CodeBlock) (rest : List CodeBlock) :
    potentialSavingsLines (b0 :: rest) = rest.length * blockLineCount b0 := by
  simp only [potentialSavingsLines, List.map_cons, List.headD_cons,
    List.sum_cons, List.map_const', List.sum_replicate, smul_eq_mul]
  omega

/-! ## Theorems settling C2 (manifest loading) -/

/-- **C2 (counterexample).**  An unparseable manifest is not handled:
`yaml.safe_load` raises `yaml.YAMLError`, which the
`except FileNotFoundError` clause does not catch, so initialization
propagates the error (and the CLI `main` turns it into `sys.exit(1)`). -/
theorem manifest_unparseable_fatal :
    loadManifest ManifestSource.unparseable = Except.error "yaml.YAMLError" :=
  rfl

/-- **C2 (amended).**  A *missing* manifest is non-fatal: `_load_manifest`
catches `FileNotFoundError`, emits a warning and returns
`{'structure': [], 'categories': []}`, from which the file index and the
dependency graph are both empty (the degraded "no data" mode). -/
theorem manifest_missing_degrades :
    loadManifest ManifestSource.missing =
      Except.ok ({ structureItems := [], categories := [] }, true) ∧
    buildFileIndex { structureItems := [], categories := [] } = [] ∧
    buildDependencyGraph { structureItems := [], categories := [] } = [] :=
  ⟨rfl, rfl, rfl⟩

/-! ## Theorems settling C4 (fragment length filter) -/

/-- **C4 (counterexample).**  A fenced block with exactly two content
lines is *kept*: its captured content ends in a newline, so
`split('\n')` yields 3 chunks and the `< 3` skip test fails.  Only blocks
with at most one content line are discarded. -/
theorem two_line_block_not_discarded :
    discardBlock (fenceContent [['a'], ['b']]) = false ∧
    extractedContents [fenceContent [['a'], ['b']]] =
      [fenceContent [['a'], ['b']]] ∧
    discardBlock (fenceContent [['a']]) = true := by
  refine ⟨?_, ?_, ?_⟩ <;> decide

/-- **C4 (amended).**  A fenced block whose captured content is its body
lines each followed by a newline is discarded iff it has fewer than 2 body
lines (the `len(content.split('\n')) < 3` test counts the trailing empty
chunk): 2-line blocks become fragments; 0- and 1-line blocks do not. -/
theorem extraction_discard_iff (ls : List (List Char))
    (h : ∀ l ∈ ls, '\n' ∉ l) :
    discardBlock (fenceContent ls) = true ↔ ls.length < 2 := by
  unfold discardBlock
  rw [pySplit_fenceContent ls h]
  simp only [List.length_append, List.length_singleton, decide_eq_true_eq]
  omega

/-- Witness for `extraction_discard_iff`: a one-line block is discarded. -/
theorem extraction_discard_iff_witness :
    discardBlock (fenceContent [['a']]) = true :=
  (extraction_discard_iff [['a']] (by decide)).mpr (by decide)

/-! ## Theorems: graph-construction characterisation -/

theorem lookup_buildGraphNodes_aux (items : List ManifestItem)
    (acc : List (String × DependencyNode)) (p : String) :
    (items.foldl (fun acc it => dictInsert acc it.path (mkNode it)) acc).lookup p =
      match items.reverse.find? (fun it => it.path = p) with
      | some it => some (mkNode it)
      | none => acc.lookup p := by
  induction items generalizing acc with
  | nil => simp
  | cons it its ih =>
    simp only [List.foldl_cons, List.reverse_cons]
    rw [ih, List.find?_append]
    cases hf : its.reverse.find? (fun it2 => decide (it2.path = p)) with
    | some it2 => simp
    | none =>
      simp only [Option.none_or]
      rw [lookup_dictInsert]
      by_cases hp : it.path = p
      · simp [List.find?, hp]
      · simp [List.find?, hp, Ne.symm hp]

theorem lookup_buildGraphNodes (m : Manifest) (p : String) :
    (buildGraphNodes m).lookup p =
      (m.structureItems.reverse.find? (fun it => it.path = p)).map mkNode := by
  unfold buildGraphNodes
  rw [lookup_buildGraphNodes_aux]
  cases hf : m.structureItems.reverse.find? (fun it => decide (it.path = p)) with
  | some it => simp
  | none => simp [List.lookup]

theorem nodup_keys_buildGraphNodes (m : Manifest) :
    ((buildGraphNodes m).map Prod.fst).Nodup := by
  unfold buildGraphNodes
  have hgen : ∀ (items : List ManifestItem)
      (acc : List (String × DependencyNode)), (acc.map Prod.fst).Nodup →
      ((items.foldl (fun acc it => dictInsert acc it.path (mkNode it)) acc).map
        Prod.fst).Nodup := by
    intro items
    induction items with
    | nil => exact fun acc h => h
    | cons it its ih =>
      intro acc h
      exact ih _ (nodup_keys_dictInsert _ _ _ h)
  exact hgen _ [] (by simp)

theorem buildGraphNodes_dependents_eq_nil (m : Manifest) (b : String)
    (n : DependencyNode) (h : (buildGraphNodes m).lookup b = some n) :
    n.dependents = [] := by
  rw [lookup_buildGraphNodes] at h
  cases hf : m.structureItems.reverse.find? (fun it => decide (it.path = b)) with
  | none =>
    rw [hf] at h
    simp at h
  | some it =>
    rw [hf] at h
    simp only [Option.map_some'] at h
    have := Option.some.inj h
    rw [← this]
    rfl

theorem lookup_appendDependent (g : List (String × DependencyNode))
    (dep p b : String) :
    (appendDependent g dep p).lookup b =
      if b = dep then
        (g.lookup b).map
          (fun n => { n with dependents := n.dependents ++ [p] })
      else g.lookup b :=
  lookup_mapUpdate g dep (fun n => { n with dependents := n.dependents ++ [p] }) b

theorem lookup_foldDeps (keyGraph : List (String × DependencyNode))
    (p : String) (deps : List String)
    (acc : List (String × DependencyNode)) (b : String) :
    ((deps.foldl (fun a d =>
        if (keyGraph.lookup d).isSome then appendDependent a d p else a)
      acc).lookup b) =
      if (keyGraph.lookup b).isSome then
        (acc.lookup b).map (fun n =>
          { n with dependents := n.dependents ++ List.replicate (deps.count b) p })
      else acc.lookup b := by
  induction deps generalizing acc with
  | nil =>
    simp only [List.foldl_nil, List.count_nil, List.replicate_zero,
      List.append_nil]
    split
    · cases acc.lookup b <;> simp
    · rfl
  | cons d ds ih =>
    simp only [List.foldl_cons]
    rw [ih]
    by_cases hd : (keyGraph.lookup d).isSome
    · rw [if_pos hd, lookup_appendDependent]
      by_cases hbd : b = d
      · subst hbd
        rw [if_pos rfl, if_pos hd, if_pos hd]
        cases acc.lookup b with
        | none => rfl
        | some n =>
          simp only [Option.map_some']
          congr 1
          simp only [List.count_cons_self, List.append_assoc,
            List.singleton_append]
          rw [List.replicate_succ]
      · rw [if_neg hbd]
        have hcount : (d :: ds).count b = ds.count b := by
          simp [List.count_cons, hbd]
        rw [hcount]
    · rw [if_neg hd]
      by_cases hbd : b = d
      · subst hbd
        rw [if_neg hd, if_neg hd]
      · have hcount : (d :: ds).count b = ds.count b := by
          simp [List.count_cons, hbd]
        rw [hcount]

theorem addDependents_cons (pe : String × DependencyNode)
    (src keyGraph acc0 : List (String × DependencyNode)) :
    addDependents (pe :: src) keyGraph acc0 =
      addDependents src keyGraph
        (pe.2.dependencies.foldl (fun a d =>
          if (keyGraph.lookup d).isSome then appendDependent a d pe.1 else a)
          acc0) := by
  simp [addDependents]

theorem dependentsContrib_cons (pe : String × DependencyNode)
    (src : List (String × DependencyNode)) (b : String) :
    dependentsContrib (pe :: src) b =
      List.replicate (pe.2.dependencies.count b) pe.1 ++
        dependentsContrib src b := by
  simp [dependentsContrib]

theorem lookup_addDependents (src keyGraph acc0 : List (String × DependencyNode))
    (b : String) :
    (addDependents src keyGraph acc0).lookup b =
      if (keyGraph.lookup b).isSome then
        (acc0.lookup b).map (fun n =>
          { n with dependents := n.dependents ++ dependentsContrib src b })
      else acc0.lookup b := by
  induction src generalizing acc0 with
  | nil =>
    simp only [addDependents, List.foldl_nil]
    have hnil : dependentsContrib [] b = [] := rfl
    rw [hnil]
    split
    · cases acc0.lookup b <;> simp
    · rfl
  | cons pe src' ih =>
    rw [addDependents_cons, ih, lookup_foldDeps, dependentsContrib_cons]
    by_cases hb : (keyGraph.lookup b).isSome
    · simp only [if_pos hb]
      cases acc0.lookup b with
      | none => rfl
      | some n =>
        simp only [Option.map_some']
        congr 1
        simp [List.append_assoc]
    · simp only [if_neg hb]

theorem lookup_buildDependencyGraph (m : Manifest) (b : String) :
    (buildDependencyGraph m).lookup b =
      ((buildGraphNodes m).lookup b).map
        (fun n => { n with dependents :=
          n.dependents ++ dependentsContrib (buildGraphNodes m) b }) := by
  unfold buildDependencyGraph
  rw [lookup_addDependents]
  by_cases hb : ((buildGraphNodes m).lookup b).isSome
  · rw [if_pos hb]
  · rw [if_neg hb]
    rw [Option.not_isSome_iff_eq_none] at hb
    rw [hb]
    rfl

theorem mem_dependentsContrib (src : List (String × DependencyNode))
    (b a : String) :
    a ∈ dependentsContrib src b ↔
      ∃ pe ∈ src, pe.1 = a ∧ b ∈ pe.2.dependencies := by
  unfold dependentsContrib
  rw [List.mem_flatten]
  constructor
  · rintro ⟨l, hl, hal⟩
    obtain ⟨pe, hpe, hrepl⟩ := List.mem_map.mp hl
    rw [← hrepl, List.mem_replicate] at hal
    obtain ⟨hne, hax⟩ := hal
    refine ⟨pe, hpe, hax.symm, ?_⟩
    rw [← List.count_pos_iff]
    omega
  · rintro ⟨pe, hpe, hfst, hmem⟩
    refine ⟨List.replicate (pe.2.dependencies.count b) pe.1,
      List.mem_map.mpr ⟨pe, hpe, rfl⟩, ?_⟩
    rw [hfst, List.mem_replicate]
    refine ⟨?_, rfl⟩
    have hpos := List.count_pos_iff.mpr hmem
    omega

theorem count_dependentsContrib (src : List (String × DependencyNode))
    (b a : String) (nA : DependencyNode)
    (hnd : (src.map Prod.fst).Nodup) (hA : src.lookup a = some nA) :
    (dependentsContrib src b).count a = nA.dependencies.count b := by
  induction src with
  | nil => simp [List.lookup] at hA
  | cons pe src' ih =>
    obtain ⟨q, n⟩ := pe
    rw [List.map_cons, List.nodup_cons] at hnd
    rw [dependentsContrib_cons, List.count_append]
    rw [lookup_cons] at hA
    by_cases hAq : a = q
    · rw [if_pos hAq] at hA
      have hn : n = nA := Option.some.inj hA
      subst hn
      subst hAq
      have hzero : (dependentsContrib src' b).count a = 0 := by
        rw [List.count_eq_zero]
        intro hmem
        obtain ⟨pe', hpe', hfst, _⟩ := (mem_dependentsContrib src' b a).mp hmem
        exact hnd.1 (List.mem_map.mpr ⟨pe', hpe', hfst⟩)
      rw [hzero, List.count_replicate]
      simp
    · rw [if_neg hAq] at hA
      have hrep : (List.replicate (n.dependencies.count b) q).count a = 0 := by
        have hqa : (q == a) = false :=
          beq_eq_false_iff_ne.mpr (fun hh => hAq hh.symm)
        rw [List.count_replicate, hqa]
        simp
      rw [hrep, ih hnd.2 hA, Nat.zero_add]

/-! ## Theorems settling C5 (duplicate path keys) -/

/-- **C5 (counterexample).**  With the same path declared twice, the built
node carries the importance, graph edges and external labels of the *last*
declaration, not the first: `graph[path] = node` overwrites. -/
theorem duplicate_path_counterexample :
    ((buildDependencyGraph dupManifest).lookup "X").map
        (fun n => (n.importance, n.dependencies, n.externalDeps)) =
      some ("critical", ["B"], ["ext-second"]) ∧
    ((buildDependencyGraph dupManifest).lookup "X").map
        (fun n => (n.importance, n.dependencies, n.externalDeps)) ≠
      some ("low", ["A"], ["ext-first"]) := by
  refine ⟨?_, ?_⟩ <;> decide

/-- **C5 (amended).**  When the declared component list contains repeated
path keys, graph construction keeps the *last* occurrence: the built node
for a path carries the importance, dependencies and external-dependency
labels of the last declaration with that path (dict assignment overwrites
earlier entries). -/
theorem duplicate_path_last_wins (m : Manifest) (p : String) :
    ((buildDependencyGraph m).lookup p).map
        (fun n => (n.importance, n.dependencies, n.externalDeps)) =
      (m.structureItems.reverse.find? (fun it => it.path = p)).map
        (fun it => (it.importance.getD "medium", it.connectsTo.getD [],
          it.dependencies.getD [])) := by
  rw [lookup_buildDependencyGraph, lookup_buildGraphNodes,
    Option.map_map, Option.map_map]
  rfl

/-! ## Theorems settling C7 and C10 (dependents derivation) -/

/-- **C7.**  After graph construction, the dependents lists are the exact
inverse of the declared dependencies restricted to declared nodes: a path
`a` appears among the dependents of the built node at `b` iff the built
node at `a` exists and declares `b` among its dependencies.  (Edges to
undeclared targets give no reverse edge — there is no node to hold one —
and dependents are derived solely from the declared edges, starting from
the dataclass-default empty list.) -/
theorem dependents_inverse (m : Manifest) (a b : String)
    (nB : DependencyNode)
    (hB : (buildDependencyGraph m).lookup b = some nB) :
    a ∈ nB.dependents ↔
      ∃ nA, (buildDependencyGraph m).lookup a = some nA ∧
        b ∈ nA.dependencies := by
  have hchar := lookup_buildDependencyGraph m b
  rw [hB] at hchar
  cases hg0 : (buildGraphNodes m).lookup b with
  | none =>
    rw [hg0] at hchar
    simp at hchar
  | some n0 =>
    rw [hg0] at hchar
    simp only [Option.map_some'] at hchar
    have hdep0 : n0.dependents = [] :=
      buildGraphNodes_dependents_eq_nil m b n0 hg0
    have hdeps : nB.dependents = dependentsContrib (buildGraphNodes m) b := by
      rw [Option.some.inj hchar, hdep0]
      simp
    rw [hdeps, mem_dependentsContrib]
    constructor
    · rintro ⟨pe, hpe, hfst, hmem⟩
      have hlook0 : (buildGraphNodes m).lookup a = some pe.2 := by
        apply lookup_eq_some_of_mem_nodup (nodup_keys_buildGraphNodes m)
        rw [← hfst]
        exact hpe
      refine ⟨{ pe.2 with dependents :=
        pe.2.dependents ++ dependentsContrib (buildGraphNodes m) a }, ?_, hmem⟩
      rw [lookup_buildDependencyGraph, hlook0]
      rfl
    · rintro ⟨nA, hA, hmem⟩
      have hcharA := lookup_buildDependencyGraph m a
      rw [hA] at hcharA
      cases hg0A : (buildGraphNodes m).lookup a with
      | none =>
        rw [hg0A] at hcharA
        simp at hcharA
      | some n0A =>
        rw [hg0A] at hcharA
        simp only [Option.map_some'] at hcharA
        have hmemA : (a, n0A) ∈ buildGraphNodes m :=
          mem_of_lookup_eq_some hg0A
        refine ⟨(a, n0A), hmemA, rfl, ?_⟩
        have hdeq : nA.dependencies = n0A.dependencies := by
          rw [Option.some.inj hcharA]
        rw [← hdeq]
        exact hmem

/-- Witness for `dependents_inverse` on the one-edge manifest A→B. -/
theorem dependents_inverse_witness :
    ∃ nB, (buildDependencyGraph edgeManifest).lookup "B" = some nB ∧
      ("A" ∈ nB.dependents ↔
        ∃ nA, (buildDependencyGraph edgeManifest).lookup "A" = some nA ∧
          "B" ∈ nA.dependencies) :=
  ⟨nodeBedge, by decide,
   dependents_inverse edgeManifest "A" "B" nodeBedge (by decide)⟩

/-- **C10.**  Dependents lists carry multiplicity: the number of copies of
`a` in the dependents of the built node at `b` equals the number of times
`b` is listed (including duplicated and self edges) in the declared
dependencies of the built node at `a`; and `blast_radius` is the plain
length of the dependents list, so it counts those copies. -/
theorem dependents_multiplicity (m : Manifest) (a b : String)
    (nA nB : DependencyNode)
    (hA : (buildDependencyGraph m).lookup a = some nA)
    (hB : (buildDependencyGraph m).lookup b = some nB) :
    nB.dependents.count a = nA.dependencies.count b ∧
    nB.blastRadius = nB.dependents.length := by
  refine ⟨?_, rfl⟩
  have hchar := lookup_buildDependencyGraph m b
  rw [hB] at hchar
  cases hg0 : (buildGraphNodes m).lookup b with
  | none =>
    rw [hg0] at hchar
    simp at hchar
  | some n0 =>
    rw [hg0] at hchar
    simp only [Option.map_some'] at hchar
    have hdep0 : n0.dependents = [] :=
      buildGraphNodes_dependents_eq_nil m b n0 hg0
    have hdeps : nB.dependents = dependentsContrib (buildGraphNodes m) b := by
      rw [Option.some.inj hchar, hdep0]
      simp
    have hcharA := lookup_buildDependencyGraph m a
    rw [hA] at hcharA
    cases hg0A : (buildGraphNodes m).lookup a with
    | none =>
      rw [hg0A] at hcharA
      simp at hcharA
    | some n0A =>
      rw [hg0A] at hcharA
      simp only [Option.map_some'] at hcharA
      have hdeq : nA.dependencies = n0A.dependencies := by
        rw [Option.some.inj hcharA]
      rw [hdeps, hdeq]
      exact count_dependentsContrib (buildGraphNodes m) b a n0A
        (nodup_keys_buildGraphNodes m) hg0A

/-- Witness for `dependents_multiplicity` on the manifest with a
duplicated edge S→T (twice) and a self edge S→S: T's dependents hold two
copies of S. -/
theorem dependents_multiplicity_witness :
    ∃ nS nT, (buildDependencyGraph multiManifest).lookup "S" = some nS ∧
      (buildDependencyGraph multiManifest).lookup "T" = some nT ∧
      nT.dependents.count "S" = nS.dependencies.count "T" ∧
      nT.dependents.count "S" = 2 ∧ nS.dependents.count "S" = 1 := by
  refine ⟨nodeS, nodeT, by decide, by decide, ?_, by decide, by decide⟩
  exact (dependents_multiplicity multiManifest "S" "T" nodeS nodeT
    (by decide) (by decide)).1

/-! ## Theorems: BFS invariants and C6 -/

theorem bfsGo_subset_visited (g : List (String × DependencyNode)) :
    ∀ visited queue : List String, ∀ x ∈ visited,
      x ∈ bfsGo g visited queue := by
  intro visited queue
  induction visited, queue using bfsGo.induct g with
  | case1 visited =>
    intro x hx
    simpa [bfsGo] using hx
  | case2 visited current rest hv ih =>
    intro x hx
    rw [bfsGo, dif_pos hv]
    exact ih x hx
  | case3 visited current rest hv node hlook ih =>
    intro x hx
    rw [bfsGo, dif_neg hv, hlook]
    exact ih x (List.mem_cons_of_mem current hx)
  | case4 visited current rest hv hlook ih =>
    intro x hx
    rw [bfsGo, dif_neg hv, hlook]
    exact ih x (List.mem_cons_of_mem current hx)

theorem bfsGo_subset_queue (g : List (String × DependencyNode)) :
    ∀ visited queue : List String, ∀ x ∈ queue,
      x ∈ bfsGo g visited queue := by
  intro visited queue
  induction visited, queue using bfsGo.induct g with
  | case1 visited =>
    intro x hx
    simp at hx
  | case2 visited current rest hv ih =>
    intro x hx
    rw [bfsGo, dif_pos hv]
    rcases List.mem_cons.mp hx with hxc | hxr
    · subst hxc
      exact bfsGo_subset_visited g visited rest x hv
    · exact ih x hxr
  | case3 visited current rest hv node hlook ih =>
    intro x hx
    rw [bfsGo, dif_neg hv, hlook]
    rcases List.mem_cons.mp hx with hxc | hxr
    · subst hxc
      exact bfsGo_subset_visited g _ _ x (List.mem_cons_self x visited)
    · exact ih x (List.mem_append_left _ hxr)
  | case4 visited current rest hv hlook ih =>
    intro x hx
    rw [bfsGo, dif_neg hv, hlook]
    rcases List.mem_cons.mp hx with hxc | hxr
    · subst hxc
      exact bfsGo_subset_visited g _ _ x (List.mem_cons_self x visited)
    · exact ih x hxr

theorem bfsGo_sound (g : List (String × DependencyNode)) :
    ∀ visited queue : List String, ∀ x ∈ bfsGo g visited queue,
      x ∈ visited ∨ ∃ q ∈ queue, Relation.ReflTransGen (stepRel g) q x := by
  intro visited queue
  induction visited, queue using bfsGo.induct g with
  | case1 visited =>
    intro x hx
    rw [bfsGo] at hx
    exact Or.inl hx
  | case2 visited current rest hv ih =>
    intro x hx
    rw [bfsGo, dif_pos hv] at hx
    rcases ih x hx with h | ⟨q, hq, hr⟩
    · exact Or.inl h
    · exact Or.inr ⟨q, List.mem_cons_of_mem current hq, hr⟩
  | case3 visited current rest hv node hlook ih =>
    intro x hx
    rw [bfsGo, dif_neg hv, hlook] at hx
    rcases ih x hx with h | ⟨q, hq, hr⟩
    · rcases List.mem_cons.mp h with hxc | hxv
      · subst hxc
        exact Or.inr ⟨x, List.mem_cons_self x rest, Relation.ReflTransGen.refl⟩
      · exact Or.inl hxv
    · rcases List.mem_append.mp hq with hqr | hqf
      · exact Or.inr ⟨q, List.mem_cons_of_mem current hqr, hr⟩
      · have hqd : q ∈ node.dependents := List.mem_of_mem_filter hqf
        refine Or.inr ⟨current, List.mem_cons_self current rest, ?_⟩
        exact Relation.ReflTransGen.head ⟨node, hlook, hqd⟩ hr
  | case4 visited current rest hv hlook ih =>
    intro x hx
    rw [bfsGo, dif_neg hv, hlook] at hx
    rcases ih x hx with h | ⟨q, hq, hr⟩
    · rcases List.mem_cons.mp h with hxc | hxv
      · subst hxc
        exact Or.inr ⟨x, List.mem_cons_self x rest, Relation.ReflTransGen.refl⟩
      · exact Or.inl hxv
    · exact Or.inr ⟨q, List.mem_cons_of_mem current hq, hr⟩

theorem bfsGo_closed (g : List (String × DependencyNode)) :
    ∀ visited queue : List String,
      (∀ v ∈ visited, ∀ w, stepRel g v w → w ∈ visited ∨ w ∈ queue) →
      ∀ v ∈ bfsGo g visited queue, ∀ w, stepRel g v w →
        w ∈ bfsGo g visited queue := by
  intro visited queue
  induction visited, queue using bfsGo.induct g with
  | case1 visited =>
    intro hinv v hv w hw
    rw [bfsGo] at hv ⊢
    rcases hinv v hv w hw with h | h
    · exact h
    · simp at h
  | case2 visited current rest hv ih =>
    intro hinv v hvm w hw
    rw [bfsGo, dif_pos hv] at hvm ⊢
    refine ih ?_ v hvm w hw
    intro v2 hv2 w2 hw2
    rcases hinv v2 hv2 w2 hw2 with h | h
    · exact Or.inl h
    · rcases List.mem_cons.mp h with hwc | hwr
      · exact Or.inl (hwc ▸ hv)
      · exact Or.inr hwr
  | case3 visited current rest hv node hlook ih =>
    intro hinv v hvm w hw
    rw [bfsGo, dif_neg hv, hlook] at hvm ⊢
    refine ih ?_ v hvm w hw
    intro v2 hv2 w2 hw2
    rcases List.mem_cons.mp hv2 with hvc | hvv
    · subst hvc
      obtain ⟨n, hn, hwd⟩ := hw2
      rw [hlook] at hn
      have hnn : node = n := Option.some.inj hn
      subst hnn
      by_cases hwin : w2 ∈ v2 :: visited
      · exact Or.inl hwin
      · refine Or.inr (List.mem_append_right _ ?_)
        exact List.mem_filter.mpr ⟨hwd, by simpa using hwin⟩
    · rcases hinv v2 hvv w2 hw2 with h | h
      · exact Or.inl (List.mem_cons_of_mem current h)
      · rcases List.mem_cons.mp h with hwc | hwr
        · exact Or.inl (hwc ▸ List.mem_cons_self current visited)
        · exact Or.inr (List.mem_append_left _ hwr)
  | case4 visited current rest hv hlook ih =>
    intro hinv v hvm w hw
    rw [bfsGo, dif_neg hv, hlook] at hvm ⊢
    refine ih ?_ v hvm w hw
    intro v2 hv2 w2 hw2
    rcases List.mem_cons.mp hv2 with hvc | hvv
    · subst hvc
      obtain ⟨n, hn, _⟩ := hw2
      rw [hlook] at hn
      exact absurd hn (by simp)
    · rcases hinv v2 hvv w2 hw2 with h | h
      · exact Or.inl (List.mem_cons_of_mem current h)
      · rcases List.mem_cons.mp h with hwc | hwr
        · exact Or.inl (hwc ▸ List.mem_cons_self current visited)
        · exact Or.inr hwr

theorem bfsGo_nodup (g : List (String × DependencyNode)) :
    ∀ visited queue : List String, visited.Nodup →
      (bfsGo g visited queue).Nodup := by
  intro visited queue
  induction visited, queue using bfsGo.induct g with
  | case1 visited =>
    intro h
    rw [bfsGo]
    exact h
  | case2 visited current rest hv ih =>
    intro h
    rw [bfsGo, dif_pos hv]
    exact ih h
  | case3 visited current rest hv node hlook ih =>
    intro h
    rw [bfsGo, dif_neg hv, hlook]
    exact ih (List.nodup_cons.mpr ⟨hv, h⟩)
  | case4 visited current rest hv hlook ih =>
    intro h
    rw [bfsGo, dif_neg hv, hlook]
    exact ih (List.nodup_cons.mpr ⟨hv, h⟩)

/-- **C6.**  For every dependency graph — cycles included, the traversal
being total by construction — the BFS over the dependents relation
returns `totalImpact` equal to the number of distinct nodes reachable
from the start node along dependents edges, excluding the start node
itself; and on the two-node cycle X→Y, Y→X the impact of X is exactly 1. -/
theorem bfs_total_impact :
    (∀ (g : List (String × DependencyNode)) (s : String),
      totalImpact g s = Set.ncard {y | Reaches g s y ∧ y ≠ s}) ∧
    totalImpact (buildDependencyGraph cycleManifest) "X" = 1 := by
  have hmain : ∀ (g : List (String × DependencyNode)) (s : String),
      totalImpact g s = Set.ncard {y | Reaches g s y ∧ y ≠ s} := by
    intro g s
    have hmem : ∀ x, x ∈ bfsGo g [] [s] ↔ Reaches g s x := by
      intro x
      constructor
      · intro hx
        rcases bfsGo_sound g [] [s] x hx with h | ⟨q, hq, hr⟩
        · simp at h
        · rw [List.mem_singleton] at hq
          subst hq
          exact hr
      · intro hreach
        have hreach2 : Relation.ReflTransGen (stepRel g) s x := hreach
        clear hreach
        induction hreach2 with
        | refl => exact bfsGo_subset_queue g [] [s] s (by simp)
        | tail hab hstep ih =>
          exact bfsGo_closed g [] [s] (by simp) _ ih _ hstep
    have hnd : (bfsGo g [] [s]).Nodup := bfsGo_nodup g [] [s] List.nodup_nil
    have hset : {y | Reaches g s y} = ↑(bfsGo g [] [s]).toFinset := by
      ext y
      simp only [Set.mem_setOf_eq, Finset.coe_sort_coe, List.coe_toFinset,
        Set.mem_setOf_eq]
      exact (hmem y).symm
    have hsub : {y | Reaches g s y ∧ y ≠ s} = {y | Reaches g s y} \ {s} := by
      ext y
      simp [Set.mem_diff]
    have hsmem : s ∈ {y | Reaches g s y} := Relation.ReflTransGen.refl
    have hfin : ({y | Reaches g s y} : Set String).Finite := by
      rw [hset]
      exact (bfsGo g [] [s]).toFinset.finite_toSet
    rw [hsub, Set.ncard_diff_singleton_of_mem hsmem hfin]
    have hcard : Set.ncard {y | Reaches g s y} = (bfsGo g [] [s]).length := by
      rw [hset, Set.ncard_coe_Finset, List.toFinset_card_of_nodup hnd]
    rw [hcard]
    rfl
  refine ⟨hmain, ?_⟩
  rw [hmain]
  have hgX : (buildDependencyGraph cycleManifest).lookup "X" = some nodeX := by
    decide
  have hgY : (buildDependencyGraph cycleManifest).lookup "Y" = some nodeY := by
    decide
  have hset : {y | Reaches (buildDependencyGraph cycleManifest) "X" y ∧
      y ≠ "X"} = {"Y"} := by
    ext y
    simp only [Set.mem_setOf_eq, Set.mem_singleton_iff]
    constructor
    · rintro ⟨hreach, hne⟩
      have hcases : ∀ z, Reaches (buildDependencyGraph cycleManifest) "X" z →
          z = "X" ∨ z = "Y" := by
        intro z hz
        have hz2 : Relation.ReflTransGen
            (stepRel (buildDependencyGraph cycleManifest)) "X" z := hz
        clear hz
        induction hz2 with
        | refl => exact Or.inl rfl
        | tail hab hstep ih =>
          rcases ih with h1 | h1
          all_goals subst h1
          · obtain ⟨n, hn, hc⟩ := hstep
            rw [hgX] at hn
            have := Option.some.inj hn
            subst this
            right
            simpa [nodeX] using hc
          · obtain ⟨n, hn, hc⟩ := hstep
            rw [hgY] at hn
            have := Option.some.inj hn
            subst this
            left
            simpa [nodeY] using hc
      rcases hcases y hreach with h | h
      · exact absurd h hne
      · exact h
    · rintro rfl
      refine ⟨?_, by decide⟩
      exact Relation.ReflTransGen.single ⟨nodeX, hgX, by decide⟩
  rw [hset, Set.ncard_singleton]

/-! ## Theorems: critical-path tracer and C3 -/

/-- A node whose declared dependency list is empty traces to the
singleton chain containing just itself. -/
theorem trace_leaf (g : List (String × DependencyNode)) (p : String)
    (n : DependencyNode) (hlook : g.lookup p = some n)
    (hdeps : n.dependencies = []) :
    traceDependencyChain g p [] = [p] := by
  rw [traceDependencyChain, dif_neg (List.not_mem_nil p), hlook]
  show p :: longestSubchain g n.dependencies [p] [] = [p]
  rw [hdeps, longestSubchain]

theorem foldl_id_of_step_id {α β : Type} (F : β → α → β) :
    ∀ (l : List α), (∀ acc2 pe, pe ∈ l → F acc2 pe = acc2) →
      ∀ acc : β, l.foldl F acc = acc := by
  intro l
  induction l with
  | nil => intro _ acc; rfl
  | cons pe l' ih =>
    intro h acc
    rw [List.foldl_cons, h acc pe (List.mem_cons_self pe l')]
    exact ih (fun acc2 pe2 hpe2 => h acc2 pe2 (List.mem_cons_of_mem pe hpe2))
      acc

/-- **C3.**  In every dependency graph (a Python dict, so with distinct
keys), the Critical-Path Tracer roots only at nodes with zero declared
outgoing dependencies, each traced chain is exactly the singleton of its
root (length 1), and therefore, after the length-≥3 filter, the
criticalPaths list is empty for every input. -/
theorem critical_paths_empty (g : List (String × DependencyNode))
    (hnd : (g.map Prod.fst).Nodup) :
    (∀ pe ∈ g, pe.2.dependencies = [] →
        traceDependencyChain g pe.1 [] = [pe.1]) ∧
    findCriticalPaths g = [] := by
  have htrace : ∀ pe ∈ g, pe.2.dependencies = [] →
      traceDependencyChain g pe.1 [] = [pe.1] := by
    intro pe hpe hdeps
    have hpe2 : (pe.1, pe.2) ∈ g := by
      rw [Prod.mk.eta]
      exact hpe
    have hlook : g.lookup pe.1 = some pe.2 :=
      lookup_eq_some_of_mem_nodup hnd hpe2
    exact trace_leaf g pe.1 pe.2 hlook hdeps
  refine ⟨htrace, ?_⟩
  have hstep : ∀ acc2 pe, pe ∈ g → criticalPathStep g acc2 pe = acc2 := by
    intro acc2 pe hpe
    unfold criticalPathStep
    by_cases hd : pe.2.dependencies = []
    · rw [if_pos hd]
      have hchain := htrace pe hpe hd
      simp only [hchain]
      rw [if_neg (by simp)]
    · rw [if_neg hd]
  unfold findCriticalPaths
  rw [foldl_id_of_step_id (criticalPathStep g) g hstep []]
  simp [List.mergeSort_nil]

/-- Witness for `critical_paths_empty`: the A→B→C→D chain manifest from
the spec's end-to-end scenario 2 produces no critical paths. -/
theorem critical_paths_empty_witness :
    findCriticalPaths (buildDependencyGraph chainManifest) = [] :=
  (critical_paths_empty (buildDependencyGraph chainManifest) (by decide)).2

end Analyzer
